import Mathlib

/-!
Shallow embedding of the lexical front end of the JustinBeaudry/antlr4
JavaScript runtime: `InputStream`, `CommonToken`/`CommonTokenFactory`,
`Lexer` recovery, `BufferedTokenStream`/`CommonTokenStream`, and the
hash-consing containers (`Set`, `BitSet`) of the utils module.

JavaScript dynamic values that matter to the verified properties (booleans
mixed with numbers, `null`/`undefined` flowing into number-typed fields)
are modelled by the small `JsVal` type; exceptions are modelled with
`Except`/`Option String` results; `this`-mutating methods become functions
from state to (result, state).
-/

namespace Antlr4

/-- Dynamic JavaScript values, as far as the embedded code needs them. -/
inductive JsVal where
  | null
  | undefined
  | bool (b : Bool)
  | num (n : Int)
  | str (s : String)
deriving Repr, DecidableEq

/-- JavaScript truthiness for the values of `JsVal`. -/
def JsVal.truthy : JsVal → Bool
  | .null => false
  | .undefined => false
  | .bool b => b
  | .num n => n ≠ 0
  | .str s => s ≠ ""

/-- Convert an optional string (a JS string-or-null argument) to a `JsVal`. -/
def jsOfOptStr : Option String → JsVal
  | none => .null
  | some s => .str s

/-- The value of `Token.EOF` in the runtime. -/
def EOFTy : Int := -1

/-! ## InputStream (src/runtime/JavaScript/src/antlr4/InputStream.js)

The two decode helpers are free functions taking a parameter `string`,
but their bodies refer to `stream.strdata` resp. `streamSize`, names that
are not in scope anywhere in the module, so evaluating them under
JavaScript semantics throws a `ReferenceError` (for `decodeCharacterCodes`
already on the first evaluation of the loop guard, for
`decodeUnicodeCodePoints` as soon as the loop body runs, i.e. whenever the
input is non-empty). -/

/-- Embeds `decodeUnicodeCodePoints` from InputStream.js. The loop is
`for (let i = 0; i < stringSize;)` with body reading
`stream.strdata.codePointAt(i)`; `stream` is not declared, so the body
throws on its first execution. With an empty input the loop body never
runs and the empty array is returned. -/
def decodeUnicodeCodePoints (string : String) : Except String (List Int) :=
  let stringSize := string.length
  if 0 < stringSize then
    .error "ReferenceError: stream is not defined"
  else
    .ok []

/-- Embeds `decodeCharacterCodes` from InputStream.js. The loop guard is
`i < streamSize`; `streamSize` is not declared (the declared local is
`stringSize`), so the very first evaluation of the guard throws, for every
input string including the empty one. -/
def decodeCharacterCodes (_string : String) : Except String (List Int) :=
  .error "ReferenceError: streamSize is not defined"

/-- The record the `InputStream` constructor would build. -/
structure InputStream where
  strdata : String
  decodeToUnicodeCodePoints : Bool
  data : List Int
  index : Nat
  size : Nat
deriving Repr, DecidableEq

/-- Embeds the `InputStream` constructor: choose the decode helper by the
`decodeToUnicodeCodePoints` flag, then populate the fields; a thrown
`ReferenceError` from the helper propagates out of the constructor. -/
def InputStream.construct (data : String) (decodeToUnicodeCodePoints : Bool) :
    Except String InputStream :=
  match (if decodeToUnicodeCodePoints then decodeUnicodeCodePoints data
         else decodeCharacterCodes data) with
  | .error e => .error e
  | .ok d =>
      .ok { strdata := data
            decodeToUnicodeCodePoints := decodeToUnicodeCodePoints
            data := d
            index := 0
            size := d.length }

/-! ## CommonToken / CommonTokenFactory
(src/runtime/JavaScript/src/antlr4/tokens/Token.js and CommonTokenFactory.js) -/

/-- A `CommonToken` as built by `new CommonToken(...)` plus the field writes
the factory performs afterwards. Field values are `JsVal` because the
factory's constructor call makes `null` and strings flow into
number-typed fields. -/
structure CommonToken where
  type : JsVal
  channel : JsVal
  start : JsVal
  stop : JsVal
  tokenIndex : JsVal
  line : JsVal
  column : JsVal
  text : JsVal
deriving Repr, DecidableEq

/-- Embeds the `CommonToken` constructor, whose parameter list is
`(source, type, channel, start, stop)`. It calls
`super(source, type, channel, start, stop, -1)`, so the base `Token`
constructor's `line`, `column` and `text` parameters take their `null`
defaults (the locally computed `line`/`column` are never passed on). -/
def CommonToken.construct (type channel start stop : JsVal) : CommonToken :=
  { type := type
    channel := channel
    start := start
    stop := stop
    tokenIndex := .num (-1)
    line := .null
    column := .null
    text := .null }

/-- Embeds `CommonTokenFactory.create(source, type, text, channel, start,
stop, line, column)`. The body runs
`new CommonToken(source, type, text, channel, stop, stop, line, column)`;
matched against the constructor's `(source, type, channel, start, stop)`
parameter list, `text` lands in `channel`, `channel` lands in `start`, the
first `stop` lands in `stop`, and the remaining arguments are dropped.
Afterwards the factory assigns `token.line`/`token.column` and resolves
the text override / eager copy. `srcGetText` stands for
`source[1].getText` (`none` models a null input stream in the source
pair). -/
def CommonTokenFactory.create (copyText : Bool)
    (srcGetText : Option (Int → Int → String)) (type : Int)
    (text : Option String) (channel start stop line column : Int) :
    CommonToken :=
  let token := CommonToken.construct (.num type) (jsOfOptStr text)
    (.num channel) (.num stop)
  let token := { token with line := JsVal.num line, column := JsVal.num column }
  match text with
  | some t => { token with text := .str t }
  | none =>
      if copyText then
        match srcGetText with
        | some f => { token with text := .str (f start stop) }
        | none => token
      else token

/-! ## Character cursor state and Lexer.recover
(InputStream.js methods and the Lexer module) -/

/-- The mutable part of an `InputStream` used by the lexer: the decoded
symbol buffer and the cursor. (`size` is `data.length`.) -/
structure CharCursor where
  data : List Int
  index : Nat
deriving Repr, DecidableEq

/-- Embeds `InputStream.LA(offset)`: offset `0` returns `0`; a negative
offset is shifted by one; the resulting position is `index + offset - 1`;
out of `[0, size)` yields `Token.EOF` (`-1`), otherwise the symbol. -/
def CharCursor.LA (s : CharCursor) (offset : Int) : Int :=
  if offset = 0 then 0
  else
    let offset := if offset < 0 then offset + 1 else offset
    let pos : Int := (s.index : Int) + offset - 1
    if pos < 0 ∨ pos ≥ (s.data.length : Int) then EOFTy
    else (s.data.getD pos.toNat 0)

/-- Embeds `InputStream.consume()`: throws `cannot consume EOF` when
`index >= size`, otherwise increments the cursor. -/
def CharCursor.consume (s : CharCursor) : Except String CharCursor :=
  if s.index ≥ s.data.length then .error "cannot consume EOF"
  else .ok { s with index := s.index + 1 }

/-- Embeds `Lexer.recover(re)`: when `LA(1)` is EOF it calls
`this._input.consume()` (which throws at EOF); otherwise, only for a
`LexerNoViableAltException`, it calls `this._interp.consume(this._input)`
(the external matcher's consume, abstracted as `interpConsume`). -/
def Lexer.recover (isLexerNoViableAlt : Bool)
    (interpConsume : CharCursor → CharCursor) (input : CharCursor) :
    Except String CharCursor :=
  if CharCursor.LA input 1 = EOFTy then
    CharCursor.consume input
  else
    if isLexerNoViableAlt then .ok (interpConsume input)
    else .ok input

/-- Embeds the `catch` clause in `Lexer.nextToken`: for a
`RecognitionException` it runs `this.notifyListeners(e)` and then
`this.recover(e)`; there is no surrounding handler, so an error thrown by
`recover` propagates out of `nextToken`. The returned flag records that
listeners were notified. -/
def Lexer.nextTokenCatch (isLexerNoViableAlt : Bool)
    (interpConsume : CharCursor → CharCursor) (input : CharCursor) :
    Except String (Bool × CharCursor) :=
  match Lexer.recover isLexerNoViableAlt interpConsume input with
  | .error e => .error e
  | .ok input' => .ok (true, input')

/-! ## BufferedTokenStream / CommonTokenStream
(src/runtime/JavaScript/src/antlr4/tokens/BufferedTokenStream.js and the
CommonTokenStream part of Token.js)

State-mutating methods become functions `BTS → result × BTS`; methods that
can throw return an `Option String` / `Except String` error component.
While loops whose bound depends on data pulled from the token source take
an explicit `fuel` argument bounding the number of iterations. -/

/-- A token as the stream sees it: `type`, `channel`, its own `text`, and
the `tokenIndex` assigned when it is appended to the buffer. -/
structure Tok where
  type : Int
  channel : Int
  text : String
  tokenIndex : Int
deriving Repr, DecidableEq

/-- Reads `l[i]` for an `Int` index the way JS array indexing behaves for
the embedded code: a negative or out-of-range index yields `undefined`,
modelled as `none`. -/
def listGetInt (l : List Tok) (i : Int) : Option Tok :=
  if i < 0 then none else l.get? i.toNat

/-- BufferedTokenStream state. `src`/`srcPos` model the token source: the
lexer's successive `nextToken()` results are `src 0, src 1, ...`.
`channel` is the extra field a `CommonTokenStream` instance carries (base
class methods never read it). -/
structure BTS where
  src : Nat → Tok
  srcPos : Nat
  tokens : List Tok
  index : Int
  fetchedEOF : Bool
  channel : Int

/-- A freshly constructed stream: empty buffer, `index = -1`,
`fetchedEOF = false`. -/
def BTS.init (src : Nat → Tok) (channel : Int) : BTS :=
  { src := src, srcPos := 0, tokens := [], index := -1, fetchedEOF := false
    channel := channel }

/-- The loop of `fetch`: pull `rem` more tokens, assigning each the next
`tokenIndex` and appending it; after appending a token of type EOF set
`fetchedEOF` and return the count appended so far. `doneCount` counts the
iterations already executed. -/
def BTS.fetchLoop (st : BTS) (doneCount : Nat) : Nat → Nat × BTS
  | 0 => (doneCount, st)
  | rem + 1 =>
      let token := st.src st.srcPos
      let token := { token with tokenIndex := (st.tokens.length : Int) }
      let st' : BTS := { st with srcPos := st.srcPos + 1
                                 tokens := st.tokens ++ [token] }
      if token.type = EOFTy then
        (doneCount + 1, { st' with fetchedEOF := true })
      else
        BTS.fetchLoop st' (doneCount + 1) rem

/-- Embeds `fetch(elementsToBuffer)`: returns `0` immediately once
`fetchedEOF` is set, otherwise runs the pull loop. -/
def BTS.fetch (st : BTS) (elementsToBuffer : Nat) : Nat × BTS :=
  if st.fetchedEOF then (0, st)
  else BTS.fetchLoop st 0 elementsToBuffer

/-- Embeds `sync(i)`: computes the deficit `i - tokens.length + 1` and, if
positive, fetches that many, reporting whether enough arrived. -/
def BTS.sync (st : BTS) (i : Int) : Bool × BTS :=
  let elementsNeeded : Int := i - (st.tokens.length : Int) + 1
  if 0 < elementsNeeded then
    (decide (elementsNeeded ≤ ((st.fetch elementsNeeded.toNat).1 : Int)),
     (st.fetch elementsNeeded.toNat).2)
  else (true, st)

/-- Embeds the base-class `adjustSeekIndex(index)`: the identity hook. -/
def BTS.adjustSeekIndexB (st : BTS) (i : Int) : Int × BTS := (i, st)

/-- Embeds `setup()` with the base-class `adjustSeekIndex`. -/
def BTS.setupB (st : BTS) : BTS :=
  let st := (st.sync 0).2
  { st with index := (st.adjustSeekIndexB 0).1 }

/-- Embeds `lazyInit()` with the base-class `adjustSeekIndex`. -/
def BTS.lazyInitB (st : BTS) : BTS :=
  if st.index = -1 then st.setupB else st

/-- Embeds `LB(k)`: `null` when `index - k` would be negative, otherwise
`tokens[index - k]`. -/
def BTS.LB (st : BTS) (k : Int) : Option Tok :=
  if st.index - k < 0 then none
  else listGetInt st.tokens (st.index - k)

/-- Embeds the base-class `LT(k)`: lazy-init, `k = 0` delegates to
`LB(-k)`, otherwise sync to `index + k - 1` and read that slot, clamping
to the last buffered token when the position runs past the end. -/
def BTS.LTb (st : BTS) (k : Int) : Option Tok × BTS :=
  let st := st.lazyInitB
  if k = 0 then (st.LB 0, st)
  else
    let i : Int := st.index + k - 1
    let st := (st.sync i).2
    if i ≥ (st.tokens.length : Int) then
      (listGetInt st.tokens ((st.tokens.length : Int) - 1), st)
    else (listGetInt st.tokens i, st)

/-- Embeds `LA(i) = this.LT(i).type`; reading `.type` of a `null` or
`undefined` token throws. -/
def BTS.LAb (st : BTS) (i : Int) : Except String Int × BTS :=
  match st.LTb i with
  | (some t, st') => (.ok t.type, st')
  | (none, st') =>
      (.error "TypeError: cannot read property type of null or undefined", st')

/-- The `skipEOFCheck` local of `consume()`: it starts as the boolean
`false`; when `index >= 0` it becomes `isEOF - 1` (a JS number: `0` or
`-1`) if `fetchedEOF` is set, else the boolean `isEOF`, where `isEOF` is
`this.index < this.tokens.length`. -/
def BTS.skipEOFCheck (st : BTS) : JsVal :=
  if 0 ≤ st.index then
    if st.fetchedEOF then
      .num ((if decide (st.index < (st.tokens.length : Int)) then 1 else 0) - 1)
    else .bool (decide (st.index < (st.tokens.length : Int)))
  else .bool false

/-- Embeds `consume()`. The EOF check runs when `skipEOFCheck` is falsy,
throwing `cannot consume EOF` when `LA(1)` is EOF; otherwise the cursor
advances through `sync`/`adjustSeekIndex`. The error component is the
thrown message. -/
def BTS.consumeB (st : BTS) : Option String × BTS :=
  match (if st.skipEOFCheck.truthy then ((none : Option String), st)
         else
           match st.LAb 1 with
           | (.error e, st') => (some e, st')
           | (.ok la, st') =>
               if la = EOFTy then (some "cannot consume EOF", st')
               else (none, st')) with
  | (some e, st') => (some e, st')
  | (none, st') =>
      if (st'.sync (st'.index + 1)).1 then
        (none, { (st'.sync (st'.index + 1)).2 with
          index := ((st'.sync (st'.index + 1)).2.adjustSeekIndexB
            ((st'.sync (st'.index + 1)).2.index + 1)).1 })
      else (none, (st'.sync (st'.index + 1)).2)

/-- Embeds the base-class `seek(index)`: lazy-init then set the cursor to
`adjustSeekIndex(index)`. -/
def BTS.seekB (st : BTS) (i : Int) : BTS :=
  let st := st.lazyInitB
  { st with index := (st.adjustSeekIndexB i).1 }

/-- The loop of `fill()`: repeat `fetch(1000)` while it returns exactly
`1000`. `fuel` bounds the number of outer iterations. -/
def BTS.fillLoop : Nat → BTS → BTS
  | 0, st => st
  | f + 1, st =>
      if (st.fetch 1000).1 = 1000 then BTS.fillLoop f (st.fetch 1000).2
      else (st.fetch 1000).2

/-- Embeds `fill()` (with an explicit iteration bound). -/
def BTS.fill (fuel : Nat) (st : BTS) : BTS :=
  BTS.fillLoop fuel st.lazyInitB

/-- The `while` loop of `nextTokenOnChannel`: as long as the token at
`index` is off this stream's channel, return `-1` on EOF, otherwise
advance, syncing as it goes. The token read is in range for every
EOF-terminated buffer; an out-of-range read (JS: `undefined.channel`
throws) and fuel exhaustion are mapped to the sentinel `-999`, which no
verified scenario reaches. Note the source compares against
`this.channel`, not the `channel` parameter. -/
def BTS.nextTokenOnChannelGo (st : BTS) (index : Int) : Nat → Int × BTS
  | 0 => (-999, st)
  | fuel + 1 =>
      match listGetInt st.tokens index with
      | none => (-999, st)
      | some t =>
          if t.channel = st.channel then (index, st)
          else if t.type = EOFTy then (-1, st)
          else
            BTS.nextTokenOnChannelGo ((st.sync (index + 1)).2) (index + 1) fuel

/-- Embeds `nextTokenOnChannel(index, channel)`: sync to `index`, return
`-1` when `index` is past the buffered end, otherwise scan forward for a
token whose channel equals `this.channel` (the `channel` parameter is
unused by the loop in the source). -/
def BTS.nextTokenOnChannel (st : BTS) (index : Int) (_channel : Int)
    (fuel : Nat) : Int × BTS :=
  let st := (st.sync index).2
  if index ≥ (st.tokens.length : Int) then (-1, st)
  else BTS.nextTokenOnChannelGo st index fuel

/-- The `while` loop of `previousTokenOnChannel`, phrased on `n = index + 1`
so it structurally descends: scan down from index `n - 1` for a token on
`channel`, returning `-1` below zero. An out-of-range read (which would
throw in JS) returns the index unchanged; the in-bounds call sites never
reach it. -/
def prevTokenOnChannelGo (tokens : List Tok) (channel : Int) : Nat → Int
  | 0 => -1
  | n + 1 =>
      match tokens.get? n with
      | some t =>
          if t.channel ≠ channel then prevTokenOnChannelGo tokens channel n
          else (n : Int)
      | none => (n : Int)

/-- Embeds `previousTokenOnChannel(index, channel)`: while `index >= 0` and
`tokens[index]` is off `channel`, decrement; returns the final index (the
argument itself when it is already negative). -/
def BTS.previousTokenOnChannel (st : BTS) (index : Int) (channel : Int) :
    Int :=
  if index < 0 then index
  else prevTokenOnChannelGo st.tokens channel (index.toNat + 1)

/-- Embeds `CommonTokenStream.adjustSeekIndex(index)`:
`nextTokenOnChannel(index, this.channel)`. -/
def BTS.adjustSeekIndexC (st : BTS) (i : Int) (fuel : Nat) : Int × BTS :=
  st.nextTokenOnChannel i st.channel fuel

/-- Embeds `setup()` as run on a `CommonTokenStream` (its overridden
`adjustSeekIndex`). -/
def BTS.setupC (st : BTS) (fuel : Nat) : BTS :=
  let st := (st.sync 0).2
  let st' := (st.adjustSeekIndexC 0 fuel).2
  { st' with index := (st.adjustSeekIndexC 0 fuel).1 }

/-- Embeds `lazyInit()` as run on a `CommonTokenStream`. -/
def BTS.lazyInitC (st : BTS) (fuel : Nat) : BTS :=
  if st.index = -1 then st.setupC fuel else st

/-- The counting loop of `CommonTokenStream.LB`: apply
`previousTokenOnChannel(i - 1, channel)` exactly `k` times. -/
def ctsLBGo (tokens : List Tok) (channel : Int) (i : Int) : Nat → Int
  | 0 => i
  | m + 1 =>
      ctsLBGo tokens channel
        (if (i - 1) < 0 then i - 1
         else prevTokenOnChannelGo tokens channel ((i - 1).toNat + 1)) m

/-- Embeds `CommonTokenStream.LB(k)`: `null` for `k = 0` or when
`index - k` is negative; otherwise walk back `k` on-channel steps and read
that slot (`null` when the walk ran below zero). -/
def BTS.ctsLB (st : BTS) (k : Int) : Option Tok × BTS :=
  if k = 0 ∨ st.index - k < 0 then (none, st)
  else
    let i := ctsLBGo st.tokens st.channel st.index k.toNat
    if i < 0 then (none, st) else (listGetInt st.tokens i, st)

/-- The `while (n < k)` loop of `CommonTokenStream.LT`: each iteration
syncs `i + 1` and, when the sync succeeds, jumps `i` to the next
on-channel token. -/
def ctsLTGo (fuel : Nat) (st : BTS) (i : Int) : Nat → Int × BTS
  | 0 => (i, st)
  | m + 1 =>
      if (st.sync (i + 1)).1 then
        let st' := (st.sync (i + 1)).2
        let r := st'.nextTokenOnChannel (i + 1) st'.channel fuel
        ctsLTGo fuel r.2 r.1 m
      else ctsLTGo fuel ((st.sync (i + 1)).2) i m

/-- Embeds `CommonTokenStream.LT(k)`: lazy-init; `null` for `k = 0`;
delegate to `LB(-k)` for negative `k`; otherwise walk forward
on-channel-token by on-channel-token `k - 1` times from the cursor and
return the token at the final index. -/
def BTS.ctsLT (st : BTS) (k : Int) (fuel : Nat) : Option Tok × BTS :=
  let st := st.lazyInitC fuel
  if k = 0 then (none, st)
  else if k < 0 then st.ctsLB (-k)
  else
    let r := ctsLTGo fuel st st.index (k - 1).toNat
    (listGetInt r.2.tokens r.1, r.2)

/-- The concatenation loop of `getText`: append each token's own text from
index `i` for `count` slots, stopping at an EOF token. An out-of-range
read stops the loop (unreachable from the clamped call site). -/
def getTextLoop (tokens : List Tok) (i : Int) (acc : String) :
    Nat → String
  | 0 => acc
  | count + 1 =>
      match listGetInt tokens i with
      | none => acc
      | some t =>
          if t.type = EOFTy then acc
          else getTextLoop tokens (i + 1) (acc ++ t.text) count

/-- Embeds `getText(interval)` as run on a `CommonTokenStream` instance
(lazy-init dispatches to the overridden `adjustSeekIndex`): lazy-init,
fill the buffer, default the interval to the whole buffer, clamp `stop`,
and concatenate token texts up to (excluding) an EOF token. -/
def BTS.getTextC (st : BTS) (interval : Option (Int × Int)) (fuel : Nat) :
    String × BTS :=
  let st := st.lazyInitC fuel
  let st := BTS.fillLoop fuel st
  let iv := match interval with
    | none => ((0 : Int), (st.tokens.length : Int) - 1)
    | some p => p
  if iv.1 < 0 ∨ iv.2 < 0 then ("", st)
  else
    let stop := if iv.2 ≥ (st.tokens.length : Int)
      then (st.tokens.length : Int) - 1 else iv.2
    (getTextLoop st.tokens iv.1 "" (stop + 1 - iv.1).toNat, st)

/-- The possible values of the `this.tokens` property once `getTokens` has
run: still an array, a single token (after
`this.tokens = this.tokens[i]`), or `undefined`. -/
inductive TokensVal where
  | arr (l : List Tok)
  | tok (t : Tok)
  | undef
deriving Repr, DecidableEq

/-- The loop of `getTokens`: each iteration executes
`const token = this.tokens = this.tokens[i]`, i.e. it reads slot `i` of
the current value of `this.tokens` and overwrites `this.tokens` with that
element. On the second iteration `this.tokens` is a single token, so the
indexing yields `undefined`, `this.tokens` becomes `undefined`, and
reading `token.type` throws. `count` is the remaining iteration count of
`for (i = start; i < stop; i++)`. -/
def getTokensLoop (types : Option (List Int)) (cur : TokensVal) (i : Int)
    (subset : List Tok) : Nat → Except String (List Tok) × TokensVal
  | 0 => (.ok subset, cur)
  | count + 1 =>
      let read : Option Tok :=
        match cur with
        | .arr l => listGetInt l i
        | _ => none
      match read with
      | none =>
          (.error "TypeError: cannot read property type of undefined", .undef)
      | some t =>
          let cur := TokensVal.tok t
          if t.type = EOFTy then (.ok subset, cur)
          else
            let subset :=
              match types with
              | none => subset ++ [t]
              | some ts => if t.type ∈ ts then subset ++ [t] else subset
            getTokensLoop types cur (i + 1) subset count

/-- Embeds `getTokens(start, stop, types)`: `null` for negative bounds;
otherwise lazy-init, clamp `stop` to the buffer length, and run the loop.
The result pairs the returned value (or thrown error) with the final value
of the `this.tokens` property; all other fields of the post-state are
those of `st.lazyInitB`. -/
def BTS.getTokensB (st : BTS) (start stop : Int)
    (types : Option (List Int)) :
    Except String (Option (List Tok)) × TokensVal :=
  if start < 0 ∨ stop < 0 then (.ok none, .arr st.tokens)
  else
    let st := st.lazyInitB
    let stop := if stop ≥ (st.tokens.length : Int)
      then (st.tokens.length : Int) - 1 else stop
    match getTokensLoop types (.arr st.tokens) start [] (stop - start).toNat with
    | (.ok subset, tv) => (.ok (some subset), tv)
    | (.error e, tv) => (.error e, tv)

/-- The loop of `filterForChannel(left, right, channel)`: for `i` from
`left` to `right` inclusive, keep `tokens[i]` when it matches `channel`
(every non-default-channel token when `channel` is `-1`). -/
def filterForChannelLoop (tokens : List Tok) (channel : Int) (i : Int)
    (acc : List Tok) : Nat → List Tok
  | 0 => acc
  | count + 1 =>
      match listGetInt tokens i with
      | none => acc
      | some t =>
          let acc :=
            if channel = -1 then
              if t.channel ≠ 0 then acc ++ [t] else acc
            else if t.channel = channel then acc ++ [t] else acc
          filterForChannelLoop tokens channel (i + 1) acc count

/-- Embeds `filterForChannel`: `null` when nothing matched. -/
def filterForChannel (tokens : List Tok) (left right channel : Int) :
    Option (List Tok) :=
  let hidden := filterForChannelLoop tokens channel left [] (right + 1 - left).toNat
  if hidden = [] then none else some hidden

/-- Embeds `getHiddenTokensToLeft(tokenIndex, channel)`: default the
channel to `-1`, lazy-init, throw a bounds error when `tokenIndex` is
outside the buffer, find `previousTokenOnChannel(tokenIndex - 1, 0)`
(`Lexer.DEFAULT_TOKEN_CHANNEL` is `0`), and — the source's
`if (!prevOnChannel) return null;` — return `null` whenever that index is
the falsy number `0`; otherwise filter `(prevOnChannel, tokenIndex)`
exclusive for `channel`. -/
def BTS.getHiddenTokensToLeft (st : BTS) (tokenIndex : Int)
    (channel : Option Int) : Except String (Option (List Tok)) × BTS :=
  let channelV : Int := match channel with | none => -1 | some c => c
  let st := st.lazyInitB
  if tokenIndex < 0 ∨ tokenIndex ≥ (st.tokens.length : Int) then
    (.error (toString tokenIndex ++ " not in 0.." ++
      toString ((st.tokens.length : Int) - 1)), st)
  else
    let prevOnChannel := st.previousTokenOnChannel (tokenIndex - 1) 0
    if prevOnChannel = 0 then (.ok none, st)
    else
      (.ok (filterForChannel st.tokens (prevOnChannel + 1) (tokenIndex - 1)
        channelV), st)

/-! ## Hash-consing containers (the utils module: `Set`, `BitSet`)

The `Set` stores its buckets in `this.data`, a plain object keyed by the
string `hash_<h>`; that object is modelled as an association list from the
hash number to the bucket, with the caller-supplied hash and equality
functions carried in the state. -/

/-- The hash-consing `Set` over values of type `V`. -/
structure HSet (V : Type) where
  buckets : List (Int × List V)
  hashF : V → Int
  eqF : V → V → Bool

/-- Lookup of the bucket stored under `hash_<k>` (`key in this.data`). -/
def alistGet {V : Type} (l : List (Int × List V)) (k : Int) :
    Option (List V) :=
  (l.find? (fun p => p.1 = k)).map (·.2)

/-- Overwrite the bucket stored under `hash_<k>`. -/
def alistSet {V : Type} (l : List (Int × List V)) (k : Int)
    (b : List V) : List (Int × List V) :=
  l.map (fun p => if p.1 = k then (p.1, b) else p)

/-- Embeds `Set.add(value)`: compute the hash, and if the bucket exists,
linearly scan it with the equality function, returning the existing entry
on a hit; on a miss push `value` into the bucket; with no bucket, create
a singleton bucket. The returned pair is (returned instance, new state). -/
def HSet.add {V : Type} (s : HSet V) (value : V) : V × HSet V :=
  let hash := s.hashF value
  match alistGet s.buckets hash with
  | some values =>
      match values.find? (fun w => s.eqF value w) with
      | some w => (w, s)
      | none =>
          (value, { s with buckets := alistSet s.buckets hash (values ++ [value]) })
  | none => (value, { s with buckets := s.buckets ++ [(hash, [value])] })

/-- Embeds `Set.values()`: the concatenation of all buckets. -/
def HSet.allValues {V : Type} (s : HSet V) : List V :=
  (s.buckets.map Prod.snd).flatten

/-- Bucket-keying invariant of a `Set`: every value sits in the bucket of
its own hash, and bucket keys are unique (a JS object has one binding per
key). -/
def HSet.Keyed {V : Type} (s : HSet V) : Prop :=
  (∀ p ∈ s.buckets, ∀ v ∈ p.2, s.hashF v = p.1) ∧
    (s.buckets.map Prod.fst).Nodup

/-- A concrete hash-consing set over pairs of integers, hashing and
comparing on the first component, holding the single value `(5, 1)`. -/
def hsetPair : HSet (Int × Int) :=
  { buckets := [(5, [(5, 1)])]
    hashF := Prod.fst
    eqF := fun a b => a.1 == b.1 }

/-- A `BitSet`'s backing store: `this.data` is a JS array written only via
`this.data[value] = true`. Numeric values create array index slots
(`indices`); non-numeric values (`true`, `undefined`) create ordinary
string-keyed properties (`props`), which do not extend the array part. -/
structure JsBitSet where
  indices : List Nat
  props : List String
deriving Repr, DecidableEq

/-- The `length` of the backing array: one past the largest index slot. -/
def JsBitSet.arrayLength (s : JsBitSet) : Nat :=
  match s.indices with
  | [] => 0
  | _ => (s.indices.foldr Nat.max 0) + 1

/-- Insert without duplicating (assigning an existing key again leaves the
object's key set unchanged). -/
def insertKeyN (n : Nat) (l : List Nat) : List Nat :=
  if n ∈ l then l else l ++ [n]

/-- Insert without duplicating, for string property keys. -/
def insertKeyS (s : String) (l : List String) : List String :=
  if s ∈ l then l else l ++ [s]

/-- Embeds `BitSet.add(value)` (`this.data[value] = true`) for the dynamic
values that reach it: a non-negative number becomes an array index slot;
any other value is coerced to a string property key (`true` → "true",
`undefined` → "undefined", ...). -/
def JsBitSet.addVal (s : JsBitSet) (v : JsVal) : JsBitSet :=
  match v with
  | .num n =>
      if 0 ≤ n then { s with indices := insertKeyN n.toNat s.indices }
      else { s with props := insertKeyS (toString n) s.props }
  | .bool true => { s with props := insertKeyS "true" s.props }
  | .bool false => { s with props := insertKeyS "false" s.props }
  | .undefined => { s with props := insertKeyS "undefined" s.props }
  | .null => { s with props := insertKeyS "null" s.props }
  | .str t => { s with props := insertKeyS t s.props }

/-- The iteration of `for (let alt of set.data)`: the array iterator of
`set.data` yields the element at each position `0 .. length - 1` — the
boolean `true` at a set slot and `undefined` at a hole (own string-keyed
properties are not visited) — and `this.add(alt)` is applied to each
yielded value. This helper folds `addVal` over `count` positions starting
at `i`. -/
def jsBitSetOrGo (a : JsBitSet) (bIndices : List Nat) (i : Nat) :
    Nat → JsBitSet
  | 0 => a
  | count + 1 =>
      let alt : JsVal := if i ∈ bIndices then .bool true else .undefined
      jsBitSetOrGo (a.addVal alt) bIndices (i + 1) count

/-- Embeds `BitSet.or(set)`: `for (let alt of set.data) this.add(alt)` —
iterate the values of `set.data`'s array part and add each one. -/
def JsBitSet.or (a b : JsBitSet) : JsBitSet :=
  jsBitSetOrGo a b.indices 0 b.arrayLength

/-- Embeds `BitSet.contains(value)` for a non-negative numeric argument:
`this.data[value] === true`, i.e. whether the index slot is set. -/
def JsBitSet.contains (s : JsBitSet) (value : Nat) : Bool :=
  value ∈ s.indices

/-! ## Buffer invariant and reachable stream states -/

/-- Strong buffer invariant, as a decidable check: with `fetchedEOF` set,
the buffer is non-empty, its last token has type EOF and no earlier token
does; with `fetchedEOF` clear, no buffered token has type EOF. -/
def tokensOk (l : List Tok) (fetchedEOF : Bool) : Bool :=
  if fetchedEOF then
    match l.getLast? with
    | some e => (e.type == EOFTy) && l.dropLast.all (fun t => t.type != EOFTy)
    | none => false
  else l.all (fun t => t.type != EOFTy)

/-- The strong invariant as a proposition on stream states. -/
def BTS.Inv (st : BTS) : Prop :=
  tokensOk st.tokens st.fetchedEOF = true

/-- Number of EOF-typed tokens in a buffer. -/
def eofCount (l : List Tok) : Nat :=
  (l.filter (fun t => t.type == EOFTy)).length

/-- The invariant exactly as the specification states it: at most one
EOF-typed token, and once `fetchedEOF` is set the last buffered token has
type EOF. -/
def BTS.ClaimInv (st : BTS) : Prop :=
  eofCount st.tokens ≤ 1 ∧
    (st.fetchedEOF = true →
      ∃ e, st.tokens.getLast? = some e ∧ e.type = EOFTy)

/-- Stream states reachable from a fresh stream by the buffered / filtered
stream operations (all of them except `getTokens`, which replaces the
buffer with a non-array value — see the `getTokens` embedding). -/
inductive BTS.Reachable : BTS → Prop where
  | init (src : Nat → Tok) (channel : Int) :
      BTS.Reachable (BTS.init src channel)
  | fetch (st : BTS) (n : Nat) :
      BTS.Reachable st → BTS.Reachable (st.fetch n).2
  | sync (st : BTS) (i : Int) :
      BTS.Reachable st → BTS.Reachable (st.sync i).2
  | lazyInit (st : BTS) :
      BTS.Reachable st → BTS.Reachable st.lazyInitB
  | lt (st : BTS) (k : Int) :
      BTS.Reachable st → BTS.Reachable (st.LTb k).2
  | consume (st : BTS) :
      BTS.Reachable st → BTS.Reachable st.consumeB.2
  | seek (st : BTS) (i : Int) :
      BTS.Reachable st → BTS.Reachable (st.seekB i)
  | fillStep (st : BTS) (fuel : Nat) :
      BTS.Reachable st → BTS.Reachable (st.fill fuel)
  | ctsLt (st : BTS) (k : Int) (fuel : Nat) :
      BTS.Reachable st → BTS.Reachable (st.ctsLT k fuel).2
  | getText (st : BTS) (iv : Option (Int × Int)) (fuel : Nat) :
      BTS.Reachable st → BTS.Reachable (st.getTextC iv fuel).2
  | hiddenLeft (st : BTS) (ti : Int) (ch : Option Int) :
      BTS.Reachable st → BTS.Reachable (st.getHiddenTokensToLeft ti ch).2

/-- Claim-invariant check for the dynamic value of the `tokens` property:
does "the last element of the buffer has type EOF" hold? A single-token
buffer's last element is that token; `undefined` has no last element. -/
def tokensValEOFLast : TokensVal → Bool
  | .arr l =>
      match l.getLast? with
      | some e => e.type == EOFTy
      | none => false
  | .tok t => t.type == EOFTy
  | .undef => false

/-! ## Concrete scenario data -/

/-- Default-channel token `A` as produced by the lexer. -/
def tokA : Tok := { type := 1, channel := 0, text := "A", tokenIndex := -1 }

/-- Hidden-channel token `#comment` as produced by the lexer. -/
def tokComment : Tok :=
  { type := 2, channel := 1, text := "#comment", tokenIndex := -1 }

/-- Default-channel token `B` as produced by the lexer. -/
def tokB : Tok := { type := 3, channel := 0, text := "\nB", tokenIndex := -1 }

/-- The EOF token the lexer keeps returning at end of input. -/
def tokEOF : Tok :=
  { type := EOFTy, channel := 0, text := "<EOF>", tokenIndex := -1 }

/-- Token source producing `A`, `#comment` (hidden), `B`, then EOF forever:
the tokenization of "A #comment\nB". -/
def srcABC : Nat → Tok := fun n =>
  match n with
  | 0 => tokA
  | 1 => tokComment
  | 2 => tokB
  | _ => tokEOF

/-- Token source producing `A` then EOF forever. -/
def srcAE : Nat → Tok := fun n =>
  match n with
  | 0 => tokA
  | _ => tokEOF

/-- `tokA` as it sits in the buffer at index 0. -/
def tokAAt0 : Tok := { tokA with tokenIndex := 0 }

/-- `tokComment` as it sits in the buffer at index 1. -/
def tokCommentAt1 : Tok := { tokComment with tokenIndex := 1 }

/-- `tokB` as it sits in the buffer at index 2. -/
def tokBAt2 : Tok := { tokB with tokenIndex := 2 }

/-- A fully buffered stream over `srcAE`, used for the consume-at-EOF and
buffer-corruption scenarios. -/
def stAE : BTS := BTS.fill 5 (BTS.init srcAE 0)

/-- A fully buffered stream over `srcABC` (buffer `A`, `#comment`, `B`,
EOF). -/
def stABC : BTS := BTS.fill 5 (BTS.init srcABC 0)

/-! ## Theorems -/

/-- C1. The claim states that constructing an `InputStream` succeeds for
every input string with `data` holding the decoded symbols. On the code
this is false: both decode helpers reference identifiers that are not in
scope (`streamSize` resp. `stream`), so the constructor throws a
`ReferenceError` — for every string in raw-unit mode, and for every
non-empty string in code-point mode. -/
theorem inputStream_construct_throws :
    (∀ s : String, InputStream.construct s false =
      .error "ReferenceError: streamSize is not defined") ∧
    InputStream.construct "ab" true =
      .error "ReferenceError: stream is not defined" := by
  refine ⟨fun s => rfl, rfl⟩

/-- C2. The claim states that `create` copies `channel` and `start` into
the token's fields. On the code this is false: the constructor call
`new CommonToken(source, type, text, channel, stop, stop, line, column)`
shifts the arguments against the `(source, type, channel, start, stop)`
parameter list, so at the concrete call
`create(source, 1, null, 0, 2, 5, 1, 0)` the token's `channel` is `null`
(the `text` argument) instead of `0`, and its `start` is `0` (the
`channel` argument) instead of `2`; `tokenIndex`, `type`, `stop`, `line`
and `column` do come out as claimed. -/
theorem commonTokenFactory_create_shifts_arguments :
    CommonTokenFactory.create false none 1 none 0 2 5 1 0 =
      { type := .num 1, channel := .null, start := .num 0, stop := .num 5
        tokenIndex := .num (-1), line := .num 1, column := .num 0
        text := .null } ∧
    (CommonTokenFactory.create false none 1 none 0 2 5 1 0).channel ≠
      .num 0 ∧
    (CommonTokenFactory.create false none 1 none 0 2 5 1 0).start ≠
      .num 2 := by
  refine ⟨rfl, by decide, by decide⟩

/-- C3. The claim states that a recognition failure never propagates out of
`nextToken`, the lexer recovering by consuming one symbol (or the EOF
symbol at end of input). On the code this is false at end of input:
`recover` sees `LA(1) === Token.EOF` and calls `this._input.consume()`,
which throws `cannot consume EOF`; the `catch` clause of `nextToken` has
no handler around `recover`, so the error escapes to the caller. -/
theorem lexer_recover_at_EOF_throws (isLexerNoViableAlt : Bool)
    (interpConsume : CharCursor → CharCursor) (input : CharCursor)
    (h : input.data.length ≤ input.index) :
    Lexer.nextTokenCatch isLexerNoViableAlt interpConsume input =
      .error "cannot consume EOF" := by
  have hLA : CharCursor.LA input 1 = EOFTy := by
    simp only [CharCursor.LA]
    norm_num
    intro hneg
    omega
  have hC : CharCursor.consume input = .error "cannot consume EOF" := by
    simp [CharCursor.consume, h]
  simp [Lexer.nextTokenCatch, Lexer.recover, hLA, hC]

/-- Witness for C3's theorem at a concrete cursor already at end of input. -/
theorem lexer_recover_at_EOF_throws_witness :
    (let input : CharCursor := { data := [65, 66], index := 2 }
     input.data.length ≤ input.index ∧
       Lexer.nextTokenCatch true id input = .error "cannot consume EOF") :=
  ⟨by decide, lexer_recover_at_EOF_throws true id _ (by decide)⟩

/-- C4. For the token sequence `A` (default channel), `#comment` (hidden),
`B` (default), EOF, a `CommonTokenStream` on the default channel answers
`LT(1) = A` and `LT(2) = B` from the initial position, and `getText()`
over the whole buffer still contains `"#comment"`. -/
theorem commonTokenStream_channel_filtering :
    (BTS.ctsLT (BTS.init srcABC 0) 1 50).1 = some tokAAt0 ∧
    ((BTS.ctsLT (BTS.init srcABC 0) 1 50).2.ctsLT 2 50).1 = some tokBAt2 ∧
    (∃ pre suf,
      (((BTS.ctsLT (BTS.init srcABC 0) 1 50).2.ctsLT 2 50).2.getTextC
          none 50).1 = pre ++ "#comment" ++ suf) := by
  refine ⟨by decide, by decide, "A", "\nB", by decide⟩

/-- C7. The claim states `getHiddenTokensToLeft` returns the matching
tokens strictly between the nearest default-channel token on the left and
`tokenIndex`, including when that boundary sits at buffer index 0. On the
code this is false: `if (!prevOnChannel) return null;` treats the found
index `0` as "not found", so on the buffer `A`(default), `#comment`
(hidden), `B`(default), EOF the query at `tokenIndex = 2` returns `null`
instead of the `#comment` token. -/
theorem getHiddenTokensToLeft_boundary_zero_returns_null :
    (stABC.getHiddenTokensToLeft 2 none).1 = .ok none ∧
    stABC.tokens = [tokAAt0, tokCommentAt1, tokBAt2,
      { tokEOF with tokenIndex := 3 }] ∧
    filterForChannel stABC.tokens 1 1 (-1) = some [tokCommentAt1] := by
  refine ⟨rfl, by decide, by decide⟩

/-- C9. The claim states `getTokens` is a read-only query returning the
matching tokens of the range. On the code this is false: the loop body
`const token = this.tokens = this.tokens[i]` overwrites the buffer with
its `i`-th element, so on a buffer `A`, `#comment`, `B`, EOF the call
`getTokens(0, 3)` throws a `TypeError` on its second iteration and leaves
the `tokens` property `undefined`. -/
theorem getTokens_destroys_buffer :
    BTS.getTokensB stABC 0 3 none =
      (.error "TypeError: cannot read property type of undefined",
       .undef) := by
  rfl

/-- C10. The claim states `a.or(b)` makes `a` contain every member of `b`.
On the code this is false: `for (let alt of set.data)` iterates the
values of `b`'s backing array (`true` at set slots, `undefined` at
holes), so `add` records the property keys `"undefined"`/`"true"` instead
of `b`'s members: with `a = {}` and `b = {2}`, after `a.or(b)` the set
`a` still does not contain `2`. -/
theorem bitSet_or_does_not_union :
    JsBitSet.or ⟨[], []⟩ ⟨[2], []⟩ =
      { indices := [], props := ["undefined", "true"] } ∧
    (JsBitSet.or ⟨[], []⟩ ⟨[2], []⟩).contains 2 = false := by
  refine ⟨by decide, by decide⟩

/-- Helper: `lazyInit` is a no-op once the cursor is initialized. -/
theorem lazyInitB_noop (st : BTS) (h : st.index ≠ -1) : st.lazyInitB = st := by
  unfold BTS.lazyInitB
  rw [if_neg h]

/-- Helper: `sync(i)` is a no-op when the deficit is not positive. -/
theorem sync_noop (st : BTS) (i : Int)
    (h : ¬ (0 < i - (st.tokens.length : Int) + 1)) :
    st.sync i = (true, st) := by
  unfold BTS.sync
  simp only [if_neg h]

/-- Helper: with the cursor on the last buffered token, `LT(1)` returns
that token and changes nothing. -/
theorem LTb_one_at_last (st : BTS)
    (hne : st.tokens ≠ [])
    (hidx : st.index = (st.tokens.length : Int) - 1) :
    st.LTb 1 = (st.tokens.getLast?, st) := by
  have hlen : 1 ≤ st.tokens.length := List.length_pos.mpr hne
  have hlz : st.lazyInitB = st := lazyInitB_noop st (by omega)
  unfold BTS.LTb
  rw [hlz]
  have hi : st.index + 1 - 1 = st.index := by ring
  have hlt : ¬ (st.index ≥ (st.tokens.length : Int)) := by omega
  simp only [if_neg one_ne_zero, hi, sync_noop st st.index (by omega),
    if_neg hlt]
  have : listGetInt st.tokens st.index = st.tokens.getLast? := by
    unfold listGetInt
    rw [if_neg (by omega : ¬ st.index < 0)]
    rw [List.get?_eq_getElem?]
    rw [List.getLast?_eq_getElem?]
    congr 1
    omega
  rw [this]

/-- C5. In every stream state where the EOF token has been fetched
(`fetchedEOF` set, EOF-typed token last in the buffer) and the cursor
rests on it, `consume()` throws `cannot consume EOF` and leaves the state
— in particular the cursor index — unchanged: `skipEOFCheck` evaluates to
the falsy number `0`, so the `LA(1)` EOF check runs and fires. -/
theorem bufferedTokenStream_consume_at_EOF_throws (st : BTS)
    (hf : st.fetchedEOF = true)
    (hne : st.tokens ≠ [])
    (hlast : ∃ e, st.tokens.getLast? = some e ∧ e.type = EOFTy)
    (hidx : st.index = (st.tokens.length : Int) - 1) :
    st.consumeB = (some "cannot consume EOF", st) := by
  obtain ⟨e, hsome, htype⟩ := hlast
  have hlen : 1 ≤ st.tokens.length := List.length_pos.mpr hne
  have hLT : st.LTb 1 = (st.tokens.getLast?, st) := LTb_one_at_last st hne hidx
  have hLA : st.LAb 1 = (.ok EOFTy, st) := by
    unfold BTS.LAb
    rw [hLT, hsome]
    simp [htype]
  have h0 : (0:Int) ≤ st.index := by omega
  have hisEOF : decide (st.index < (st.tokens.length : Int)) = true := by
    simp only [decide_eq_true_eq]
    omega
  have hskip : st.skipEOFCheck = .num 0 := by
    unfold BTS.skipEOFCheck
    simp only [if_pos h0, hf, if_pos rfl, hisEOF]
    norm_num
  unfold BTS.consumeB
  rw [hskip]
  simp only [JsVal.truthy, hLA]
  norm_num

/-- Witness for C5's theorem: the fully buffered stream over `A`, EOF,
seeked onto its EOF token. -/
theorem bufferedTokenStream_consume_at_EOF_throws_witness :
    ((stAE.seekB 1).fetchedEOF = true ∧
     (stAE.seekB 1).tokens ≠ [] ∧
     (∃ e, (stAE.seekB 1).tokens.getLast? = some e ∧ e.type = EOFTy) ∧
     (stAE.seekB 1).index = (((stAE.seekB 1).tokens.length : Int) - 1)) ∧
    (stAE.seekB 1).consumeB = (some "cannot consume EOF", stAE.seekB 1) :=
  ⟨⟨by decide, by decide,
    ⟨{ tokEOF with tokenIndex := 1 }, by decide, by decide⟩, by decide⟩,
   bufferedTokenStream_consume_at_EOF_throws (stAE.seekB 1) (by decide)
     (by decide) ⟨{ tokEOF with tokenIndex := 1 }, by decide, by decide⟩
     (by decide)⟩

/-- C6, counterexample. The claim says the buffer invariant (EOF last once
`fetchedEOF` is set) is preserved by every operation. It is not:
on the fully buffered stream over `A`, EOF (where the invariant holds),
`getTokens(0, 2)` rebinds the `tokens` property to the single token `A`,
leaving a state with `fetchedEOF` set whose buffer's last element is not
an EOF token. -/
theorem getTokens_violates_buffer_invariant :
    stAE.fetchedEOF = true ∧
    tokensValEOFLast (.arr stAE.tokens) = true ∧
    BTS.getTokensB stAE 0 2 none = (.ok (some [tokAAt0]), .tok tokAAt0) ∧
    tokensValEOFLast (BTS.getTokensB stAE 0 2 none).2 = false := by
  exact ⟨by decide, by decide, rfl, by decide⟩

/-- Helper: a state with `fetchedEOF` clear and no EOF-typed token buffered satisfies the strong invariant. -/
theorem inv_of_not_fetchedEOF (st : BTS) (hf : st.fetchedEOF = false)
    (h : ∀ t ∈ st.tokens, t.type ≠ EOFTy) : st.Inv := by
  unfold BTS.Inv tokensOk
  rw [hf]
  simp only [if_neg Bool.false_ne_true, List.all_eq_true]
  intro t ht
  simpa using h t ht

/-- Helper: the fetch loop preserves the strong invariant, starting from a state with `fetchedEOF` clear and no buffered EOF token. -/
theorem fetchLoop_inv (rem : Nat) (st : BTS) (dc : Nat)
    (hf : st.fetchedEOF = false)
    (h : ∀ t ∈ st.tokens, t.type ≠ EOFTy) :
    (BTS.fetchLoop st dc rem).2.Inv := by
  induction rem generalizing st dc with
  | zero =>
      unfold BTS.fetchLoop
      exact inv_of_not_fetchedEOF st hf h
  | succ rem ih =>
      unfold BTS.fetchLoop
      set token := { st.src st.srcPos with tokenIndex := (st.tokens.length : Int) } with htok
      by_cases he : token.type = EOFTy
      · simp only [if_pos he]
        unfold BTS.Inv tokensOk
        simp only [List.getLast?_concat, List.dropLast_concat,
          if_true, htok, he]
        rw [Bool.and_eq_true]
        refine ⟨beq_iff_eq.mpr he, ?_⟩
        rw [List.all_eq_true]
        intro t ht
        simpa using h t ht
      · simp only [if_neg he]
        apply ih
        · exact hf
        · intro t ht
          rcases List.mem_append.mp ht with h1 | h1
          · exact h t h1
          · simp only [List.mem_singleton] at h1
            subst h1
            exact he

/-- Helper: under the strong invariant, a state with `fetchedEOF` clear has no EOF-typed token buffered. -/
theorem all_non_eof_of_inv (st : BTS) (hf : st.fetchedEOF = false)
    (hI : st.Inv) : ∀ t ∈ st.tokens, t.type ≠ EOFTy := by
  unfold BTS.Inv tokensOk at hI
  rw [hf] at hI
  simp only [if_neg Bool.false_ne_true, List.all_eq_true] at hI
  intro t ht
  simpa using hI t ht

/-- Helper: `fetch` preserves the strong invariant. -/
theorem fetch_inv (st : BTS) (n : Nat) (hI : st.Inv) : (st.fetch n).2.Inv := by
  unfold BTS.fetch
  by_cases hf : st.fetchedEOF = true
  · simp only [if_pos hf]
    exact hI
  · rw [Bool.not_eq_true] at hf
    simp only [hf, Bool.false_eq_true, if_false]
    exact fetchLoop_inv n st 0 hf (all_non_eof_of_inv st hf hI)

/-- Helper: `sync` preserves the strong invariant. -/
theorem sync_inv (st : BTS) (i : Int) (hI : st.Inv) : (st.sync i).2.Inv := by
  unfold BTS.sync
  by_cases hc : (0:Int) < i - (st.tokens.length : Int) + 1
  · simp only [if_pos hc]
    exact fetch_inv st _ hI
  · simp only [if_neg hc]
    exact hI

/-- Helper: the strong invariant does not mention the cursor. -/
theorem inv_set_index (st : BTS) (i : Int) (hI : st.Inv) :
    BTS.Inv { st with index := i } := hI

/-- Helper: `setup` preserves the strong invariant. -/
theorem setupB_inv (st : BTS) (hI : st.Inv) : st.setupB.Inv := by
  unfold BTS.setupB
  exact inv_set_index _ _ (sync_inv st 0 hI)

/-- Helper: `lazyInit` preserves the strong invariant. -/
theorem lazyInitB_inv (st : BTS) (hI : st.Inv) : st.lazyInitB.Inv := by
  unfold BTS.lazyInitB
  by_cases hc : st.index = -1
  · simp only [if_pos hc]
    exact setupB_inv st hI
  · simp only [if_neg hc]
    exact hI

/-- Helper: the state after base-class `LT(k)`. -/
theorem LTb_state_eq (st : BTS) (k : Int) :
    (st.LTb k).2 = (if k = 0 then st.lazyInitB
      else (st.lazyInitB.sync (st.lazyInitB.index + k - 1)).2) := by
  unfold BTS.LTb
  by_cases hc : k = 0
  · simp only [if_pos hc]
  · simp only [if_neg hc]
    split <;> rfl

/-- Helper: base-class `LT` preserves the strong invariant. -/
theorem LTb_inv (st : BTS) (k : Int) (hI : st.Inv) : (st.LTb k).2.Inv := by
  rw [LTb_state_eq]
  by_cases hc : k = 0
  · simp only [if_pos hc]
    exact lazyInitB_inv st hI
  · simp only [if_neg hc]
    exact sync_inv _ _ (lazyInitB_inv st hI)

/-- Helper: `LA` changes state exactly as `LT` does. -/
theorem LAb_state_eq (st : BTS) (i : Int) : (st.LAb i).2 = (st.LTb i).2 := by
  unfold BTS.LAb
  rcases h : st.LTb i with ⟨r, st'⟩
  cases r <;> simp

/-- Helper: `consume` preserves the strong invariant. -/
theorem consumeB_inv (st : BTS) (hI : st.Inv) : st.consumeB.2.Inv := by
  unfold BTS.consumeB
  by_cases ht : st.skipEOFCheck.truthy = true
  · rw [if_pos ht]
    dsimp only
    split
    · exact inv_set_index _ _ (sync_inv _ _ hI)
    · exact sync_inv _ _ hI
  · rw [if_neg ht]
    rcases hla : st.LAb 1 with ⟨r, st'⟩
    have hI' : st'.Inv := by
      have hs := LAb_state_eq st 1
      rw [hla] at hs
      rw [show st' = (st.LTb 1).2 from hs]
      exact LTb_inv st 1 hI
    simp only [hla]
    cases r with
    | error e => simpa using hI'
    | ok la =>
        by_cases he : la = EOFTy
        · simp only [if_pos he]
          simpa using hI'
        · simp only [if_neg he]
          split
          · exact inv_set_index _ _ (sync_inv _ _ hI')
          · exact sync_inv _ _ hI'

/-- Helper: `seek` preserves the strong invariant. -/
theorem seekB_inv (st : BTS) (i : Int) (hI : st.Inv) : (st.seekB i).Inv := by
  unfold BTS.seekB
  exact inv_set_index _ _ (lazyInitB_inv st hI)

/-- Helper: the fill loop preserves the strong invariant. -/
theorem fillLoop_inv (fuel : Nat) (st : BTS) (hI : st.Inv) :
    (BTS.fillLoop fuel st).Inv := by
  induction fuel generalizing st with
  | zero => exact hI
  | succ f ih =>
      unfold BTS.fillLoop
      split
      · exact ih _ (fetch_inv st 1000 hI)
      · exact fetch_inv st 1000 hI

/-- Helper: `fill` preserves the strong invariant. -/
theorem fill_inv (st : BTS) (fuel : Nat) (hI : st.Inv) :
    (st.fill fuel).Inv := by
  unfold BTS.fill
  exact fillLoop_inv fuel _ (lazyInitB_inv st hI)

/-- Helper: the channel-scan loop preserves the strong invariant. -/
theorem nextTokenOnChannelGo_inv (fuel : Nat) (st : BTS) (index : Int) (hI : st.Inv) :
    (BTS.nextTokenOnChannelGo st index fuel).2.Inv := by
  induction fuel generalizing st index with
  | zero => exact hI
  | succ f ih =>
      unfold BTS.nextTokenOnChannelGo
      split
      · exact hI
      · split
        · exact hI
        · split
          · exact hI
          · exact ih _ _ (sync_inv _ _ hI)

/-- Helper: `nextTokenOnChannel` preserves the strong invariant. -/
theorem nextTokenOnChannel_inv (st : BTS) (index ch : Int) (fuel : Nat) (hI : st.Inv) :
    (st.nextTokenOnChannel index ch fuel).2.Inv := by
  unfold BTS.nextTokenOnChannel
  dsimp only
  split
  · exact sync_inv _ _ hI
  · exact nextTokenOnChannelGo_inv _ _ _ (sync_inv _ _ hI)

/-- Helper: the filtered-stream `setup` preserves the strong invariant. -/
theorem setupC_inv (st : BTS) (fuel : Nat) (hI : st.Inv) :
    (st.setupC fuel).Inv := by
  unfold BTS.setupC BTS.adjustSeekIndexC
  exact inv_set_index _ _ (nextTokenOnChannel_inv _ _ _ _ (sync_inv _ _ hI))

/-- Helper: the filtered-stream `lazyInit` preserves the strong invariant. -/
theorem lazyInitC_inv (st : BTS) (fuel : Nat) (hI : st.Inv) :
    (st.lazyInitC fuel).Inv := by
  unfold BTS.lazyInitC
  split
  · exact setupC_inv st fuel hI
  · exact hI

/-- Helper: `CommonTokenStream.LB` never changes the state. -/
theorem ctsLB_state_eq (st : BTS) (k : Int) : (st.ctsLB k).2 = st := by
  unfold BTS.ctsLB
  dsimp only
  split
  · rfl
  · split <;> rfl

/-- Helper: the walk loop of `CommonTokenStream.LT` preserves the strong invariant. -/
theorem ctsLTGo_inv (m : Nat) (fuel : Nat) (st : BTS) (i : Int)
    (hI : st.Inv) : (ctsLTGo fuel st i m).2.Inv := by
  induction m generalizing st i with
  | zero => exact hI
  | succ m ih =>
      unfold ctsLTGo
      split
      · exact ih _ _ (nextTokenOnChannel_inv _ _ _ _ (sync_inv _ _ hI))
      · exact ih _ _ (sync_inv _ _ hI)

/-- Helper: `CommonTokenStream.LT` preserves the strong invariant. -/
theorem ctsLT_inv (st : BTS) (k : Int) (fuel : Nat) (hI : st.Inv) :
    (st.ctsLT k fuel).2.Inv := by
  unfold BTS.ctsLT
  dsimp only
  have hILC : (st.lazyInitC fuel).Inv := lazyInitC_inv st fuel hI
  split
  · exact hILC
  · split
    · rw [ctsLB_state_eq]
      exact hILC
    · exact ctsLTGo_inv _ _ _ _ hILC

/-- Helper: `getText` preserves the strong invariant. -/
theorem getTextC_inv (st : BTS) (iv : Option (Int × Int)) (fuel : Nat)
    (hI : st.Inv) : (st.getTextC iv fuel).2.Inv := by
  unfold BTS.getTextC
  dsimp only
  have h1 : (BTS.fillLoop fuel (st.lazyInitC fuel)).Inv :=
    fillLoop_inv fuel _ (lazyInitC_inv st fuel hI)
  split
  · exact h1
  · exact h1

/-- Helper: `getHiddenTokensToLeft` preserves the strong invariant. -/
theorem getHiddenTokensToLeft_inv (st : BTS) (ti : Int) (ch : Option Int)
    (hI : st.Inv) : (st.getHiddenTokensToLeft ti ch).2.Inv := by
  unfold BTS.getHiddenTokensToLeft
  dsimp only
  have h1 : st.lazyInitB.Inv := lazyInitB_inv st hI
  split
  · exact h1
  · split
    · exact h1
    · exact h1

/-- Helper: a freshly constructed stream satisfies the strong invariant. -/
theorem init_inv (src : Nat → Tok) (channel : Int) :
    (BTS.init src channel).Inv := by
  unfold BTS.init BTS.Inv tokensOk
  simp

/-- Helper: every reachable state satisfies the strong invariant. -/
theorem reachable_inv (st : BTS) (h : st.Reachable) : st.Inv := by
  induction h with
  | init src channel => exact init_inv src channel
  | fetch st n _ ih => exact fetch_inv st n ih
  | sync st i _ ih => exact sync_inv st i ih
  | lazyInit st _ ih => exact lazyInitB_inv st ih
  | lt st k _ ih => exact LTb_inv st k ih
  | consume st _ ih => exact consumeB_inv st ih
  | seek st i _ ih => exact seekB_inv st i ih
  | fillStep st fuel _ ih => exact fill_inv st fuel ih
  | ctsLt st k fuel _ ih => exact ctsLT_inv st k fuel ih
  | getText st iv fuel _ ih => exact getTextC_inv st iv fuel ih
  | hiddenLeft st ti ch _ ih => exact getHiddenTokensToLeft_inv st ti ch ih

/-- Helper: the strong invariant implies the invariant as the specification states it. -/
theorem claimInv_of_inv (st : BTS) (hI : st.Inv) : st.ClaimInv := by
  unfold BTS.Inv tokensOk at hI
  unfold BTS.ClaimInv eofCount
  by_cases hf : st.fetchedEOF = true
  · rw [if_pos hf] at hI
    rcases hg : st.tokens.getLast? with _ | e
    · rw [hg] at hI
      simp at hI
    · rw [hg] at hI
      rw [Bool.and_eq_true, List.all_eq_true] at hI
      obtain ⟨he, hall⟩ := hI
      have hne : st.tokens ≠ [] := by
        intro hnil
        rw [hnil] at hg
        simp at hg
      have hsplit : st.tokens.dropLast ++ [e] = st.tokens := by
        have h2 := List.dropLast_append_getLast hne
        rw [List.getLast?_eq_getLast_of_ne_nil hne] at hg
        rw [Option.some_inj] at hg
        rw [hg] at h2
        exact h2
      constructor
      · rw [← hsplit, List.filter_append]
        have hdrop : st.tokens.dropLast.filter (fun t => t.type == EOFTy) = [] := by
          rw [List.filter_eq_nil_iff]
          intro t ht
          have := hall t ht
          simpa using this
        rw [hdrop]
        simp only [List.nil_append, List.filter_singleton, he, cond_true,
          List.length_singleton, le_refl]
      · intro _
        exact ⟨e, by simp [hg], beq_iff_eq.mp he⟩
  · rw [Bool.not_eq_true] at hf
    rw [hf, if_neg Bool.false_ne_true, List.all_eq_true] at hI
    constructor
    · have : st.tokens.filter (fun t => t.type == EOFTy) = [] := by
        rw [List.filter_eq_nil_iff]
        intro t ht
        simpa using hI t ht
      rw [this]
      simp
    · intro hcontra
      rw [hf] at hcontra
      exact absurd hcontra Bool.false_ne_true

/-- Helper: `fetch` returns 0 and appends nothing once `fetchedEOF` is set. -/
theorem fetch_noop_of_fetchedEOF (st : BTS) (n : Nat) (hf : st.fetchedEOF = true) :
    st.fetch n = (0, st) := by
  unfold BTS.fetch
  rw [if_pos hf]

/-- Helper: the fetch loop appends at most its iteration count and stops immediately after appending an EOF token (no appended token before the last one has type EOF). -/
theorem fetchLoop_tokens_append (rem : Nat) (st : BTS) (dc : Nat) :
    ∃ app, (BTS.fetchLoop st dc rem).2.tokens = st.tokens ++ app ∧
      app.length ≤ rem ∧ ∀ t ∈ app.dropLast, t.type ≠ EOFTy := by
  induction rem generalizing st dc with
  | zero =>
      refine ⟨[], ?_, by simp, by simp⟩
      unfold BTS.fetchLoop
      simp
  | succ rem ih =>
      unfold BTS.fetchLoop
      set token := { st.src st.srcPos with tokenIndex := (st.tokens.length : Int) } with htok
      by_cases he : token.type = EOFTy
      · rw [if_pos he]
        exact ⟨[token], by simp, by simp, by simp⟩
      · rw [if_neg he]
        obtain ⟨app, h1, h2, h3⟩ :=
          ih { st with srcPos := st.srcPos + 1, tokens := st.tokens ++ [token] }
            (dc + 1)
        refine ⟨token :: app, ?_, by simpa using h2, ?_⟩
        · rw [h1]
          simp
        · intro t ht
          cases app with
          | nil => simp at ht
          | cons b bs =>
              rw [List.dropLast_cons₂] at ht
              rcases List.mem_cons.mp ht with h4 | h4
              · subst h4
                exact he
              · exact h3 t h4

/-- Helper: `fetch(n)` appends at most `n` tokens, all before the last appended one non-EOF. -/
theorem fetch_tokens_append (st : BTS) (n : Nat) :
    ∃ app, (st.fetch n).2.tokens = st.tokens ++ app ∧ app.length ≤ n ∧
      ∀ t ∈ app.dropLast, t.type ≠ EOFTy := by
  unfold BTS.fetch
  split
  · exact ⟨[], by simp, by simp, by simp⟩
  · exact fetchLoop_tokens_append n st 0

/-- C6, amended. In every state reachable by the stream operations other
than `getTokens` (which corrupts the buffer — see the separate
counterexample), the buffer holds at most one EOF-typed token and, once
`fetchedEOF` is set, an EOF-typed token is the last element; moreover
`fetch(n)` returns 0 and appends nothing once `fetchedEOF` is set, and
otherwise appends at most `n` tokens with every appended token before the
last one non-EOF (it stops immediately after appending an EOF token). -/
theorem bufferedTokenStream_fetch_and_invariant :
    (∀ st : BTS, st.Reachable → st.ClaimInv) ∧
    (∀ (st : BTS) (n : Nat), st.fetchedEOF = true → st.fetch n = (0, st)) ∧
    (∀ (st : BTS) (n : Nat), ∃ appended,
      (st.fetch n).2.tokens = st.tokens ++ appended ∧
      appended.length ≤ n ∧
      ∀ t ∈ appended.dropLast, t.type ≠ EOFTy) :=
  ⟨fun st h => claimInv_of_inv st (reachable_inv st h),
   fun st n hf => fetch_noop_of_fetchedEOF st n hf,
   fun st n => fetch_tokens_append st n⟩

/-- Witness for C6's theorem at the concrete reachable state `stAE` (fill
applied to a fresh stream over the `A`, EOF source). -/
theorem bufferedTokenStream_fetch_and_invariant_witness :
    stAE.Reachable ∧ stAE.ClaimInv ∧
    stAE.fetchedEOF = true ∧ stAE.fetch 3 = (0, stAE) :=
  ⟨BTS.Reachable.fillStep _ 5 (BTS.Reachable.init srcAE 0),
   bufferedTokenStream_fetch_and_invariant.1 stAE
     (BTS.Reachable.fillStep _ 5 (BTS.Reachable.init srcAE 0)),
   by decide,
   bufferedTokenStream_fetch_and_invariant.2.1 stAE 3 (by decide)⟩

/-- Helper: with unique keys, the bucket lookup of an entry of the association list returns exactly that entry. -/
theorem alistGet_of_mem {V : Type} (l : List (Int × List V))
    (p : Int × List V) (hp : p ∈ l) (hnd : (l.map Prod.fst).Nodup) :
    alistGet l p.1 = some p.2 := by
  induction l with
  | nil => simp at hp
  | cons q l ih =>
      rcases List.mem_cons.mp hp with h | h
      · subst h
        unfold alistGet
        rw [List.find?_cons_of_pos _ (by simp)]
        rfl
      · have hq : ¬ (q.1 = p.1) := by
          intro he
          exact (List.nodup_cons.mp hnd).1
            (he ▸ List.mem_map_of_mem Prod.fst h)
        unfold alistGet
        rw [List.find?_cons_of_neg _ (by simpa using hq)]
        exact ih h ((List.nodup_cons.mp hnd).2)

/-- Helper: membership in `values()` is membership in some bucket. -/
theorem mem_allValues {V : Type} (s : HSet V) (w : V) :
    w ∈ s.allValues ↔ ∃ p ∈ s.buckets, w ∈ p.2 := by
  unfold HSet.allValues
  rw [List.mem_flatten]
  constructor
  · rintro ⟨b, hb, hw⟩
    rcases List.mem_map.mp hb with ⟨p, hp, rfl⟩
    exact ⟨p, hp, hw⟩
  · rintro ⟨p, hp, hw⟩
    exact ⟨p.2, List.mem_map_of_mem Prod.snd hp, hw⟩

/-- Helper: when some stored value is equal (under the supplied equality) to the argument, `add` returns a stored equal value and leaves the set unchanged. -/
theorem hset_add_hit {V : Type} (s : HSet V) (v2 : V)
    (compat : ∀ a b, s.eqF a b = true → s.hashF a = s.hashF b)
    (keyed : s.Keyed)
    (hex : ∃ w ∈ s.allValues, s.eqF v2 w = true) :
    (s.add v2).2 = s ∧ (s.add v2).1 ∈ s.allValues ∧
      s.eqF v2 (s.add v2).1 = true := by
  obtain ⟨w, hw, heq⟩ := hex
  obtain ⟨p, hp, hwp⟩ := (mem_allValues s w).mp hw
  have hkey : s.hashF w = p.1 := keyed.1 p hp w hwp
  have hhash : s.hashF v2 = p.1 := (compat v2 w heq).trans hkey
  have hget : alistGet s.buckets (s.hashF v2) = some p.2 := by
    rw [hhash]
    exact alistGet_of_mem s.buckets p hp keyed.2
  have hfind : ∃ w', p.2.find? (fun x => s.eqF v2 x) = some w' := by
    have : (p.2.find? (fun x => s.eqF v2 x)).isSome := by
      rw [List.find?_isSome]
      exact ⟨w, hwp, heq⟩
    exact Option.isSome_iff_exists.mp this
  obtain ⟨w', hw'⟩ := hfind
  have hmem : w' ∈ p.2 := List.mem_of_find?_eq_some hw'
  have heq' : s.eqF v2 w' = true := List.find?_some hw'
  unfold HSet.add
  dsimp only
  rw [hget]
  dsimp only
  rw [hw']
  exact ⟨rfl, (mem_allValues s w').mpr ⟨p, hp, hmem⟩, heq'⟩

/-- Helper: when no stored value is equal to the argument, `add` inserts the argument, returns it, and keeps every previously stored value. -/
theorem hset_add_miss {V : Type} (s : HSet V) (v2 : V)
    (keyed : s.Keyed)
    (hmiss : ∀ w ∈ s.allValues, s.eqF v2 w = false) :
    (s.add v2).1 = v2 ∧ v2 ∈ (s.add v2).2.allValues ∧
      ∀ w ∈ s.allValues, w ∈ (s.add v2).2.allValues := by
  unfold HSet.add
  dsimp only
  rcases hget : alistGet s.buckets (s.hashF v2) with _ | b
  · dsimp only
    refine ⟨rfl, ?_, ?_⟩
    · exact (mem_allValues _ _).mpr
        ⟨(s.hashF v2, [v2]), by simp, by simp⟩
    · intro w hw
      obtain ⟨p, hp, hwp⟩ := (mem_allValues s w).mp hw
      exact (mem_allValues _ _).mpr ⟨p, by simp [hp], hwp⟩
  · obtain ⟨q, hq, hqb⟩ : ∃ q, List.find? (fun p => p.1 = s.hashF v2)
        s.buckets = some q ∧ q.2 = b := by
      unfold alistGet at hget
      rcases hfq : List.find? (fun p => p.1 = s.hashF v2) s.buckets with _ | q
      · rw [hfq] at hget
        simp at hget
      · rw [hfq] at hget
        exact ⟨q, hfq, by simpa using hget⟩
    have hqmem : q ∈ s.buckets := List.mem_of_find?_eq_some hq
    have hqkey : q.1 = s.hashF v2 := by
      have := List.find?_some hq
      simpa using this
    have hfind : b.find? (fun x => s.eqF v2 x) = none := by
      rw [List.find?_eq_none]
      intro x hx
      have hxall : x ∈ s.allValues :=
        (mem_allValues s x).mpr ⟨q, hqmem, hqb ▸ hx⟩
      simp [hmiss x hxall]
    dsimp only
    rw [hfind]
    dsimp only
    refine ⟨rfl, ?_, ?_⟩
    · refine (mem_allValues _ _).mpr ⟨(q.1, b ++ [v2]), ?_, by simp⟩
      unfold alistSet
      have : ((fun p => if p.1 = s.hashF v2 then (p.1, b ++ [v2]) else p) q)
          = (q.1, b ++ [v2]) := by
        simp [hqkey]
      exact this ▸ List.mem_map_of_mem _ hqmem
    · intro w hw
      obtain ⟨p, hp, hwp⟩ := (mem_allValues s w).mp hw
      by_cases hpk : p.1 = s.hashF v2
      · have hpq : p = q :=
          List.inj_on_of_nodup_map keyed.2 hp hqmem (by rw [hpk, hqkey])
        refine (mem_allValues _ _).mpr ⟨(q.1, b ++ [v2]), ?_, ?_⟩
        · unfold alistSet
          have : ((fun p => if p.1 = s.hashF v2 then (p.1, b ++ [v2]) else p) q)
              = (q.1, b ++ [v2]) := by
            simp [hqkey]
          exact this ▸ List.mem_map_of_mem _ hqmem
        · rw [List.mem_append]
          left
          rw [← hqb]
          exact hpq ▸ hwp
      · refine (mem_allValues _ _).mpr ⟨p, ?_, hwp⟩
        unfold alistSet
        have : ((fun r => if r.1 = s.hashF v2 then (r.1, b ++ [v2]) else r) p)
            = p := by
          simp [hpk]
        exact this ▸ List.mem_map_of_mem _ hp

/-- C8. For a hash-consing `Set` whose hash function respects the supplied
equality, `add(v2)` with `v2` equal to some previously stored `v1` returns
a stored equal instance and changes nothing (the bucket is untouched);
`add` of a value with no stored equal entry inserts it and returns it,
keeping all previous entries. -/
theorem hashConsing_set_add_canonicalizes {V : Type} (s : HSet V) (v2 : V)
    (compat : ∀ a b, s.eqF a b = true → s.hashF a = s.hashF b)
    (keyed : s.Keyed) :
    ((∃ w ∈ s.allValues, s.eqF v2 w = true) →
      (s.add v2).2 = s ∧ (s.add v2).1 ∈ s.allValues ∧
        s.eqF v2 (s.add v2).1 = true) ∧
    ((∀ w ∈ s.allValues, s.eqF v2 w = false) →
      (s.add v2).1 = v2 ∧ v2 ∈ (s.add v2).2.allValues ∧
        ∀ w ∈ s.allValues, w ∈ (s.add v2).2.allValues) :=
  ⟨fun hex => hset_add_hit s v2 compat keyed hex,
   fun hmiss => hset_add_miss s v2 keyed hmiss⟩

/-- Witness for C8's theorem: the set over pairs hashing/comparing on the
first component, holding `(5, 1)`; adding the structurally equal distinct
pair `(5, 2)` returns the stored `(5, 1)` and leaves the set unchanged. -/
theorem hashConsing_set_add_canonicalizes_witness :
    hsetPair.Keyed ∧
    (∃ w ∈ hsetPair.allValues, hsetPair.eqF (5, 2) w = true) ∧
    ((hsetPair.add (5, 2)).2 = hsetPair ∧
      (hsetPair.add (5, 2)).1 ∈ hsetPair.allValues ∧
      hsetPair.eqF (5, 2) (hsetPair.add (5, 2)).1 = true) :=
  ⟨⟨by decide, by decide⟩, by decide,
   (hashConsing_set_add_canonicalizes hsetPair (5, 2)
       (fun a b h => beq_iff_eq.mp h) ⟨by decide, by decide⟩).1 (by decide)⟩

end Antlr4
